import Mathlib

/-!
Verification of the LiveTVCollector aggregation pipeline.

The pipeline (SpecialCollection.js and its undici variant) fetches remote M3U
playlists, parses them into channel records, deduplicates by URL, verifies
liveness of each unique URL in bounded batches, groups by category and
detected region, splits each bucket into bounded chunks and exports each
chunk in several file formats.

The embedding below translates the JavaScript source into executable Lean
definitions. Network effects (HTTP fetches and liveness probes) are
abstracted as oracle functions passed in as parameters; file-system effects
are modelled as an explicit operation trace. String scanning is carried out
on character lists so that every definition evaluates by kernel reduction.
-/

/-- One streaming channel record, as built by parseM3U: object literal with
fields name, url, group in that key order. Identity key is url. -/
structure Channel where
  name : String
  url : String
  group : String
deriving DecidableEq

/-- Whitespace as removed by the trim calls in the source (ASCII subset of
the JavaScript definition, which is what the playlist inputs use). -/
def jsWhitespace (c : Char) : Bool :=
  c == ' ' || c == '\t' || c == '\n' || c == '\r'

/-- Model of String.prototype.trim on a character list. -/
def trimChars (s : List Char) : List Char :=
  ((s.dropWhile jsWhitespace).reverse.dropWhile jsWhitespace).reverse

/-- Model of content.split of a newline: splits a character list at every
newline character, keeping empty segments, exactly as the JavaScript split. -/
def splitOnNewline : List Char → List (List Char)
  | [] => [[]]
  | c :: cs =>
    if c = '\n' then [] :: splitOnNewline cs
    else
      match splitOnNewline cs with
      | [] => [[c]]
      | l :: ls => (c :: l) :: ls

/-- Boolean test that pat is a prefix of s (character-exact). -/
def listPrefixEq : List Char → List Char → Bool
  | [], _ => true
  | _ :: _, [] => false
  | p :: ps, c :: cs => p == c && listPrefixEq ps cs

/-- Model of the regex search for a comma followed by at least one character:
the source line match of a comma and a captured group of one or more
characters. The regex engine takes the first comma at which the greedy
capture is non-empty; the dot of the regex excludes line terminators. -/
def findNameAfterComma : List Char → Option (List Char)
  | [] => none
  | c :: rest =>
    if c = ',' then
      let body := rest.takeWhile (fun d => d != '\n' && d != '\r')
      if body = [] then findNameAfterComma rest else some body
    else findNameAfterComma rest

/-- Display name extracted from an entry-metadata line: the capture of the
comma regex, defaulting to Unknown when the regex does not match. -/
def extinfName (line : List Char) : String :=
  match findNameAfterComma line with
  | some cs => String.mk cs
  | none => "Unknown"

/-- Literal pattern of the group-title attribute opening, including the
opening double quote. -/
def groupTitlePat : List Char := "group-title=\"".data

/-- Model of the regex search for a quoted group-title attribute: at each
position, the literal pattern must be followed by one or more non-quote
characters and a closing quote; the first matching position wins. -/
def findGroupTitle : List Char → Option (List Char)
  | [] => none
  | c :: rest =>
    let s := c :: rest
    if listPrefixEq groupTitlePat s then
      let body := (s.drop groupTitlePat.length).takeWhile (fun d => d != '"')
      let after := (s.drop groupTitlePat.length).drop body.length
      if body ≠ [] ∧ after.head? = some '"' then some body
      else findGroupTitle rest
    else findGroupTitle rest

/-- Group extracted from an entry-metadata line: the quoted group-title
capture, defaulting to Unknown when the attribute is absent. -/
def extinfGroup (line : List Char) : String :=
  match findGroupTitle line with
  | some cs => String.mk cs
  | none => "Unknown"

/-- Pending channel opened by an entry-metadata line: the url field of the
source object is still null, so only name and group are carried. -/
structure Pending where
  name : String
  group : String
deriving DecidableEq

/-- Pending record built from a trimmed entry-metadata line. -/
def mkPending (line : List Char) : Pending :=
  { name := extinfName line, group := extinfGroup line }

/-- State machine of parseM3U over the split lines: an EXTINF line opens (or
replaces) the pending channel; a non-blank line not starting with a hash
closes it, supplying the url; other lines leave the state unchanged. -/
def parseLines : List (List Char) → Option Pending → List Channel
  | [], _ => []
  | l :: ls, cur =>
    let line := trimChars l
    if listPrefixEq "#EXTINF".data line then
      parseLines ls (some (mkPending line))
    else if line ≠ [] ∧ ¬ listPrefixEq "#".data line then
      match cur with
      | some p => { name := p.name, url := String.mk line, group := p.group } :: parseLines ls none
      | none => parseLines ls none
    else
      parseLines ls cur

/-- Translation of parseM3U: split the content on newlines, run the state
machine, and keep only channels with a truthy url, as the source filter. -/
def parseM3U (content : String) : List Channel :=
  (parseLines (splitOnNewline content.data) none).filter (fun ch => ch.url != "")

example : parseM3U "#EXTM3U\n#EXTINF:-1 group-title=\"India News\",Channel1\nhttp://a/1\n" =
    [{ name := "Channel1", url := "http://a/1", group := "India News" }] := by decide

example : parseM3U "#EXTINF:-1,A\n\n#EXTINF:-1,B\nhttp://b" =
    [{ name := "B", url := "http://b", group := "Unknown" }] := by decide

example : extinfName "#EXTINF:-1,A,B".data = "A,B" := by decide

example : extinfName "#EXTINF:-1".data = "Unknown" := by decide

example : extinfGroup "#EXTINF:-1 group-title=\"\" x".data = "Unknown" := by decide

/-- Search, as the specification words it, for the next non-blank
non-directive line before the next entry-metadata line or end of input.
Returns the found line (trimmed, it supplies the url) or none, together
with the position at which scanning resumes: after the url line when one
was found, at the stopping entry-metadata line or end of input otherwise. -/
def findUrlStep : List (List Char) → Option (List Char) × List (List Char)
  | [] => (none, [])
  | l :: ls =>
    let line := trimChars l
    if listPrefixEq "#EXTINF".data line then (none, l :: ls)
    else if line ≠ [] ∧ ¬ listPrefixEq "#".data line then (some line, ls)
    else findUrlStep ls

theorem findUrlStep_snd_length : ∀ (ls : List (List Char)),
    (findUrlStep ls).2.length ≤ ls.length := by
  intro ls
  induction ls with
  | nil => simp [findUrlStep]
  | cons l ls ih =>
    simp only [findUrlStep]
    split
    · simp
    · split
      · simp
      · exact Nat.le_trans ih (by simp)

/-- Modelled from the spec: a pending channel opened by an entry-metadata
line is emitted exactly when a later non-blank, non-directive line follows
it before the next entry-metadata line or end of input, that line supplying
the url; a pending channel with no such following line is dropped and
scanning resumes at the stopping point. -/
def parseSpecLines : List (List Char) → List Channel
  | [] => []
  | l :: ls =>
    let line := trimChars l
    if listPrefixEq "#EXTINF".data line then
      (match (findUrlStep ls).1 with
       | some u => [{ name := extinfName line, url := String.mk u, group := extinfGroup line }]
       | none => []) ++ parseSpecLines (findUrlStep ls).2
    else parseSpecLines ls
termination_by ls => ls.length
decreasing_by
  · exact Nat.lt_succ_of_le (findUrlStep_snd_length ls)
  · simp

/-- Modelled from the spec: parseM3U as the specification describes it. -/
def parseM3USpec (content : String) : List Channel :=
  parseSpecLines (splitOnNewline content.data)

/-- Status test of a completed liveness probe: the probe result is modelled
as an optional status code, none standing for a timeout or connection
error. The source treats a status in the range from 200 up to but excluding
400 as active and every error as inactive. -/
def statusActive : Option Nat → Bool
  | none => false
  | some s => decide (200 ≤ s) && decide (s < 400)

/-- Result record of one probe inside checkLinkBatch. -/
structure CheckResult where
  url : String
  isActive : Bool
deriving DecidableEq

/-- Translation of checkLinkBatch: probe every url of the batch (the probe
oracle abstracts the HEAD request with its timeout), wrap each outcome in a
result record, and keep only the active ones. -/
def checkLinkBatch (probe : String → Option Nat) (urls : List String) : List CheckResult :=
  (urls.map (fun u => CheckResult.mk u (statusActive (probe u)))).filter
    (fun r => r.isActive)

/-- Fetch stage of collectActiveLinks: each source url yields the parsed
channels of its playlist, or nothing on a fetch failure (the fetch oracle
abstracts the GET request, its timeout and the status check). -/
def fetchParsed (fetch : String → Option String) (urls : List String) : List Channel :=
  urls.flatMap (fun u =>
    match fetch u with
    | some content => parseM3U content
    | none => [])

/-- One insertion into the URL-keyed map of collectActiveLinks: a channel is
added only when no entry with its url exists, so the first writer wins. The
map is modelled as an insertion-ordered list. -/
def dedupInsert (table : List Channel) (ch : Channel) : List Channel :=
  if table.any (fun c => c.url == ch.url) then table else table ++ [ch]

/-- Deduplication of all parsed channels in arrival order. -/
def dedupAll (chs : List Channel) : List Channel :=
  chs.foldl dedupInsert []

/-- Lookup of the map entry for a url, as the get call on the URL-keyed map. -/
def lookupChannel (table : List Channel) (u : String) : Option Channel :=
  table.find? (fun c => c.url == u)

/-- Fuel-driven recursion behind splitChannels: each step takes one chunk of
at most n consecutive elements. The fuel only serves structural recursion;
it never runs out when it starts at the list length. -/
def splitChannelsFuel {α : Type} (n : Nat) : Nat → List α → List (List α)
  | _, [] => []
  | 0, x :: xs => [x :: xs]
  | fuel + 1, x :: xs => (x :: xs.take (n - 1)) :: splitChannelsFuel n fuel (xs.drop (n - 1))

/-- Translation of splitChannels: chunks of at most n consecutive elements.
This total form agrees with the source loop for every positive n; the loop
itself, including its nontermination at n equal to zero, is modelled
separately by splitChannelsLoop. -/
def splitChannels {α : Type} (n : Nat) (l : List α) : List (List α) :=
  splitChannelsFuel n l.length l

theorem splitChannelsFuel_fuel_irrelevant {α : Type} (n : Nat) :
    ∀ (fuel₁ fuel₂ : Nat) (l : List α), l.length ≤ fuel₁ → l.length ≤ fuel₂ →
      splitChannelsFuel n fuel₁ l = splitChannelsFuel n fuel₂ l := by
  intro fuel₁
  induction fuel₁ with
  | zero =>
    intro fuel₂ l h₁ h₂
    cases l with
    | nil => cases fuel₂ <;> rfl
    | cons x xs => simp at h₁
  | succ f ih =>
    intro fuel₂ l h₁ h₂
    cases l with
    | nil => cases fuel₂ <;> rfl
    | cons x xs =>
      cases fuel₂ with
      | zero => simp at h₂
      | succ f₂ =>
        simp only [splitChannelsFuel]
        have hd : (xs.drop (n - 1)).length ≤ f := by
          simp only [List.length_drop]
          simp only [List.length_cons] at h₁
          omega
        have hd₂ : (xs.drop (n - 1)).length ≤ f₂ := by
          simp only [List.length_drop]
          simp only [List.length_cons] at h₂
          omega
        rw [ih f₂ _ hd hd₂]

theorem splitChannels_nil {α : Type} (n : Nat) : splitChannels n ([] : List α) = [] := rfl

theorem splitChannels_cons {α : Type} (n : Nat) (x : α) (xs : List α) :
    splitChannels n (x :: xs) = (x :: xs.take (n - 1)) :: splitChannels n (xs.drop (n - 1)) := by
  show splitChannelsFuel n (xs.length + 1) (x :: xs) = _
  simp only [splitChannelsFuel, splitChannels]
  rw [splitChannelsFuel_fuel_irrelevant n xs.length (xs.drop (n - 1)).length (xs.drop (n - 1))]
  · simp [List.length_drop]
  · exact Nat.le_refl _

/-- Literal translation of the splitChannels loop: index i advances by n
each iteration and the slice from i of length at most n is appended; fuel
counts the remaining permitted iterations, none meaning the fuel ran out
before the loop exited. -/
def splitChannelsLoop {α : Type} (channels : List α) (n : Nat) :
    Nat → Nat → List (List α) → Option (List (List α))
  | 0, _, _ => none
  | fuel + 1, i, acc =>
    if i < channels.length then
      splitChannelsLoop channels n fuel (i + n) (acc ++ [(channels.drop i).take n])
    else some acc

/-- Translation of collectActiveLinks (undici variant): fetch and parse all
sources, deduplicate by url into the insertion-ordered map, then walk the
unique channels in consecutive batches of batchSize, keep the urls whose
probe is active, and map each back to its map entry. -/
def collectActiveLinks (fetch : String → Option String) (probe : String → Option Nat)
    (urls : List String) (batchSize : Nat) : List Channel :=
  let uniqueChannels := dedupAll (fetchParsed fetch urls)
  (splitChannels batchSize uniqueChannels).flatMap (fun batch =>
    (checkLinkBatch probe (batch.map Channel.url)).filterMap
      (fun r => lookupChannel uniqueChannels r.url))

example : splitChannels 2 [1, 2, 3, 4, 5] = [[1, 2], [3, 4], [5]] := by decide

example : splitChannelsLoop [1, 2, 3] 2 4 0 [] = some [[1, 2], [3]] := by decide

example : splitChannelsLoop [1, 2, 3] 0 50 0 [] = none := by decide

/-- Fixed ordered list of country names used for region detection, exactly
as the source constant. -/
def countries : List String :=
  ["USA", "India", "UK", "Canada", "Australia", "Germany", "France", "Italy", "Spain", "Brazil",
   "China", "Japan", "Korea", "Mexico", "Russia", "South Africa", "Argentina", "Netherlands",
   "Sweden", "Norway"]

/-- Lower-cased copy of a character list (ASCII case mapping, which covers
every name of the country list). -/
def lowerChars (s : List Char) : List Char :=
  s.map Char.toLower

/-- Boolean substring test: does s contain pat as a contiguous run. Models
the includes call of the source. -/
def hasSub (pat : List Char) : List Char → Bool
  | [] => pat.isEmpty
  | c :: cs => listPrefixEq pat (c :: cs) || hasSub pat cs

/-- Case-insensitive prefix test, modelling the case-insensitive regex used
for the removal of the detected country. -/
def ciPrefixEq : List Char → List Char → Bool
  | [], _ => true
  | _ :: _, [] => false
  | p :: ps, c :: cs => p.toLower == c.toLower && ciPrefixEq ps cs

/-- Removal of the first case-insensitive occurrence of pat, modelling the
replace call with a case-insensitive regex and an empty replacement. -/
def removeFirstCI (pat : List Char) : List Char → List Char
  | [] => []
  | c :: cs =>
    if ciPrefixEq pat (c :: cs) then (c :: cs).drop pat.length
    else c :: removeFirstCI pat cs

/-- Per-channel classification done inside groupChannels: find the first
country of the ordered list appearing case-insensitively in the group,
returning the pair of group key and country. On a match the country is
removed from the group (first occurrence, case-insensitive), the result
trimmed, and an empty result becomes General; with no match the country is
Unknown and the group kept. An empty group string first falls back to
Unknown. -/
def channelRegionGroup (grp : String) : String × String :=
  let group := if grp = "" then "Unknown" else grp
  match countries.find? (fun c => hasSub (lowerChars c.data) (lowerChars group.data)) with
  | none => (if group = "Unknown" then "Unknown" else group, "Unknown")
  | some c =>
    let stripped := String.mk (trimChars (removeFirstCI c.data group.data))
    let newGroup := if stripped = "" then "General" else stripped
    (if newGroup = "Unknown" then "Unknown" else newGroup, c)

example : channelRegionGroup "India News" = ("News", "India") := by decide

example : channelRegionGroup "Entertainment" = ("Entertainment", "Unknown") := by decide

example : channelRegionGroup "India" = ("General", "India") := by decide

/-- Two-level insertion-ordered table of groupChannels: group key, then
country, then the bucket of channels in arrival order. -/
def Grouped : Type := List (String × List (String × List Channel))

/-- Append a channel to the bucket of a country inside one group, creating
the country key at the end when absent (object key insertion order). -/
def addToCountry (l : List (String × List Channel)) (country : String) (ch : Channel) :
    List (String × List Channel) :=
  match l with
  | [] => [(country, [ch])]
  | (k, cs) :: rest =>
    if k = country then (k, cs ++ [ch]) :: rest
    else (k, cs) :: addToCountry rest country ch

/-- Append a channel to the bucket of a group and country, creating keys at
the end when absent. -/
def addToGrouped (g : Grouped) (groupKey country : String) (ch : Channel) : Grouped :=
  match g with
  | [] => [(groupKey, [(country, [ch])])]
  | (k, sub) :: rest =>
    if k = groupKey then (k, addToCountry sub country ch) :: rest
    else (k, sub) :: addToGrouped rest groupKey country ch

/-- Translation of groupChannels: classify each channel and push it into the
two-level table in arrival order. -/
def groupChannels (chs : List Channel) : Grouped :=
  chs.foldl (fun g ch =>
    let gc := channelRegionGroup ch.group
    addToGrouped g gc.1 gc.2 ch) []

/-- Every channel stored in the two-level table, group by group and country
by country, buckets kept in order. -/
def allOfCountries (l : List (String × List Channel)) : List Channel :=
  l.flatMap (fun p => p.2)

def allOfGrouped (g : Grouped) : List Channel :=
  g.flatMap (fun p => allOfCountries p.2)

/-- File-system effects issued by saveResults, as an operation trace. The
delete operation is the recursive force delete, which also succeeds on an
absent tree, so clearing is idempotent. -/
inductive FsOp where
  | deleteTree : String → FsOp
  | mkdirTree : String → FsOp
  | writeFileOp : String → String → FsOp
deriving DecidableEq

/-- Directory-name sanitizer of saveResults: every character outside the
ASCII letters and digits becomes an underscore. -/
def safeName (s : String) : String :=
  String.mk (s.data.map (fun c => if c.isAlphanum then c else '_'))

/-- File-name suffix of chunk index i: empty for the first chunk, then the
decimal rendering of i plus one. -/
def suffixStr (i : Nat) : String :=
  if i = 0 then "" else toString (i + 1)

/-- One entry of the extended playlist output: metadata directive carrying
the bucket group and the channel name, then the url line. -/
def m3uLine (group : String) (ch : Channel) : String :=
  "#EXTINF:-1 group-title=\"" ++ group ++ "\"," ++ ch.name ++ "\n" ++ ch.url ++ "\n"

/-- Extended playlist content of a chunk: header line, then the entries
accumulated in order, as the string concatenation loop of the source. -/
def m3uRender (group : String) (chunk : List Channel) : String :=
  chunk.foldl (fun acc ch => acc ++ m3uLine group ch) "#EXTM3U\n"

/-- Plain text content of a chunk: the urls joined by newlines. -/
def txtRender (chunk : List Channel) : String :=
  String.intercalate "\n" (chunk.map Channel.url)

/-- JSON string escaping for the serialization of a chunk. The common
escapes of the JSON serializer are covered (backslash, quote and the ASCII
control characters appearing in playlist data). -/
def jsonEscapeChar (c : Char) : List Char :=
  if c = '"' then ['\\', '"']
  else if c = '\\' then ['\\', '\\']
  else if c = '\n' then ['\\', 'n']
  else if c = '\r' then ['\\', 'r']
  else if c = '\t' then ['\\', 't']
  else [c]

def jsonStr (s : String) : String :=
  "\"" ++ String.mk (s.data.flatMap jsonEscapeChar) ++ "\""

/-- Serialization of one channel record inside the chunk array, with the
two-space indent of the source stringify call and the key order of the
object literal built by parseM3U. -/
def channelJsonObj (ch : Channel) : String :=
  "  \x7b\n    \"name\": " ++ jsonStr ch.name ++ ",\n    \"url\": " ++ jsonStr ch.url ++
    ",\n    \"group\": " ++ jsonStr ch.group ++ "\n  \x7d"

/-- Serialization of a chunk: the JSON stringify of the channel array with
a two-space indent. -/
def jsonRender (chunk : List Channel) : String :=
  match chunk with
  | [] => "[]"
  | _ :: _ => "[\n" ++ String.intercalate ",\n" (chunk.map channelJsonObj) ++ "\n]"

/-- Per-chunk write loop of saveResults: chunk index i drives the suffix,
an empty chunk is skipped (the guard of the source), and each kept chunk
writes its three files in order. -/
def chunkOps (dir group : String) : Nat → List (List Channel) → List FsOp
  | _, [] => []
  | i, chunk :: rest =>
    if chunk.length = 0 then chunkOps dir group (i + 1) rest
    else
      FsOp.writeFileOp (dir ++ "/SpecialLinks" ++ suffixStr i ++ ".m3u") (m3uRender group chunk) ::
      FsOp.writeFileOp (dir ++ "/SpecialLinks" ++ suffixStr i ++ ".json") (jsonRender chunk) ::
      FsOp.writeFileOp (dir ++ "/SpecialLinks" ++ suffixStr i ++ ".txt") (txtRender chunk) ::
      chunkOps dir group (i + 1) rest

/-- Operations of one group and country bucket: create the sanitized
directory, split the bucket and run the chunk loop. -/
def bucketOps (outDir group country : String) (chs : List Channel) (n : Nat) : List FsOp :=
  let dir := outDir ++ "/" ++ safeName group ++ "/" ++ safeName country
  FsOp.mkdirTree dir :: chunkOps dir group 0 (splitChannels n chs)

/-- Flattened bucket list of the grouped table, in object entry order:
group key, country key, bucket. -/
def bucketsOf (g : Grouped) : List (String × String × List Channel) :=
  g.flatMap (fun gc => gc.2.map (fun cc => (gc.1, cc.1, cc.2)))

/-- Translation of saveResults (undici variant) as a file-system trace:
clear the output tree, group the channels, emit the operations of every
non-empty bucket, and when no bucket produced a save task, delete the
output tree again. -/
def saveResultsTrace (chs : List Channel) (outDir : String) (n : Nat) : List FsOp :=
  let nonempty := (bucketsOf (groupChannels chs)).filter (fun b => b.2.2.length != 0)
  FsOp.deleteTree outDir ::
    (nonempty.flatMap (fun b => bucketOps outDir b.1 b.2.1 b.2.2 n) ++
      (if nonempty.length = 0 then [FsOp.deleteTree outDir] else []))

/-- Write operations of a trace. -/
def writesOf (ops : List FsOp) : List FsOp :=
  ops.filter (fun op =>
    match op with
    | FsOp.writeFileOp _ _ => true
    | _ => false)

/-- Channels appearing in the artifacts written by saveResults: the chunks
of every bucket, flattened in output order. -/
def exportedChannels (chs : List Channel) (n : Nat) : List Channel :=
  (bucketsOf (groupChannels chs)).flatMap (fun b => (splitChannels n b.2.2).flatten)

example :
    saveResultsTrace [{ name := "A", url := "http://u", group := "G" }] "out" 2 =
      [FsOp.deleteTree "out",
       FsOp.mkdirTree "out/G/Unknown",
       FsOp.writeFileOp "out/G/Unknown/SpecialLinks.m3u"
         "#EXTM3U\n#EXTINF:-1 group-title=\"G\",A\nhttp://u\n",
       FsOp.writeFileOp "out/G/Unknown/SpecialLinks.json"
         "[\n  \x7b\n    \"name\": \"A\",\n    \"url\": \"http://u\",\n    \"group\": \"G\"\n  \x7d\n]",
       FsOp.writeFileOp "out/G/Unknown/SpecialLinks.txt" "http://u"] := by decide

example : saveResultsTrace [] "out" 2 = [FsOp.deleteTree "out", FsOp.deleteTree "out"] := by decide

theorem splitChannels_flatten_bounded {α : Type} (n : Nat) (hn : 0 < n) :
    ∀ (len : Nat) (l : List α), l.length ≤ len → (splitChannels n l).flatten = l := by
  intro len
  induction len with
  | zero =>
    intro l hl
    cases l with
    | nil => simp [splitChannels_nil]
    | cons x xs => simp at hl
  | succ k ih =>
    intro l hl
    cases l with
    | nil => simp [splitChannels_nil]
    | cons x xs =>
      rw [splitChannels_cons]
      simp only [List.flatten_cons]
      rw [ih (xs.drop (n - 1)) ?_]
      · rw [List.cons_append, List.take_append_drop]
      · simp only [List.length_drop]
        simp only [List.length_cons] at hl
        omega

theorem splitChannels_flatten {α : Type} (n : Nat) (hn : 0 < n) (l : List α) :
    (splitChannels n l).flatten = l :=
  splitChannels_flatten_bounded n hn l.length l (Nat.le_refl _)

theorem splitChannels_chunk_bounds {α : Type} (n : Nat) (hn : 0 < n) :
    ∀ (len : Nat) (l : List α), l.length ≤ len →
      ∀ c ∈ splitChannels n l, 0 < c.length ∧ c.length ≤ n := by
  intro len
  induction len with
  | zero =>
    intro l hl c hc
    cases l with
    | nil => simp [splitChannels_nil] at hc
    | cons x xs => simp at hl
  | succ k ih =>
    intro l hl c hc
    cases l with
    | nil => simp [splitChannels_nil] at hc
    | cons x xs =>
      rw [splitChannels_cons] at hc
      rcases List.mem_cons.mp hc with h | h
      · subst h
        constructor
        · simp
        · simp only [List.length_cons, List.length_take]
          omega
      · exact ih (xs.drop (n - 1))
          (by simp only [List.length_drop]; simp only [List.length_cons] at hl; omega) c h

theorem splitChannels_eq_nil_iff {α : Type} (n : Nat) (l : List α) :
    splitChannels n l = [] ↔ l = [] := by
  cases l with
  | nil => simp [splitChannels_nil]
  | cons x xs => simp [splitChannels_cons]

theorem splitChannels_dropLast_full {α : Type} (n : Nat) (hn : 0 < n) :
    ∀ (len : Nat) (l : List α), l.length ≤ len →
      ∀ c ∈ (splitChannels n l).dropLast, c.length = n := by
  intro len
  induction len with
  | zero =>
    intro l hl c hc
    cases l with
    | nil => simp [splitChannels_nil] at hc
    | cons x xs => simp at hl
  | succ k ih =>
    intro l hl c hc
    cases l with
    | nil => simp [splitChannels_nil] at hc
    | cons x xs =>
      rw [splitChannels_cons] at hc
      by_cases hrest : splitChannels n (xs.drop (n - 1)) = []
      · rw [hrest] at hc
        simp at hc
      · rw [List.dropLast_cons_of_ne_nil hrest] at hc
        rcases List.mem_cons.mp hc with h | h
        · subst h
          have hd : xs.drop (n - 1) ≠ [] := by
            intro hd
            exact hrest (by rw [hd, splitChannels_nil])
          have hlen : n - 1 ≤ xs.length := by
            by_contra hcon
            exact hd (List.drop_eq_nil_of_le (by omega))
          simp only [List.length_cons, List.length_take]
          omega
        · exact ih (xs.drop (n - 1))
            (by simp only [List.length_drop]; simp only [List.length_cons] at hl; omega) c h

theorem splitChannelsLoop_some {α : Type} (l : List α) (n : Nat) (hn : 0 < n) :
    ∀ (fuel i : Nat) (acc : List (List α)), l.length - i < fuel →
      splitChannelsLoop l n fuel i acc = some (acc ++ splitChannels n (l.drop i)) := by
  intro fuel
  induction fuel with
  | zero => intro i acc h; omega
  | succ f ih =>
    intro i acc h
    simp only [splitChannelsLoop]
    split
    case isTrue hi =>
      rw [ih (i + n) _ (by omega)]
      rw [List.append_assoc]
      congr 1
      have hne : l.drop i ≠ [] := by
        intro hd
        have := List.drop_eq_nil_iff.mp hd
        omega
      obtain ⟨x, xs, hx⟩ := List.exists_cons_of_ne_nil hne
      rw [hx, splitChannels_cons]
      have hdrop : l.drop (i + n) = xs.drop (n - 1) := by
        have h1 : l.drop (i + n) = (l.drop i).drop n := by
          rw [List.drop_drop]
        rw [h1, hx]
        cases n with
        | zero => omega
        | succ m => simp [List.drop_succ_cons]
      have htake : (l.drop i).take n = x :: xs.take (n - 1) := by
        rw [hx]
        cases n with
        | zero => omega
        | succ m => simp [List.take_succ_cons]
      rw [hdrop, ← htake, hx]
      simp
    case isFalse hi =>
      have : l.drop i = [] := List.drop_eq_nil_of_le (by omega)
      rw [this, splitChannels_nil, List.append_nil]

theorem splitChannelsLoop_zero_none {α : Type} (x : α) (xs : List α) :
    ∀ (fuel : Nat) (acc : List (List α)), splitChannelsLoop (x :: xs) 0 fuel 0 acc = none := by
  intro fuel
  induction fuel with
  | zero => intro acc; rfl
  | succ f ih =>
    intro acc
    simp only [splitChannelsLoop]
    rw [if_pos (by simp)]
    exact ih _

/-- Path of a file-system operation. -/
def opPath : FsOp → String
  | FsOp.deleteTree p => p
  | FsOp.mkdirTree p => p
  | FsOp.writeFileOp p _ => p

/-- Three artifacts written for the chunk of index i: extended playlist,
JSON array and plain-text url list, in source order. -/
def chunkArtifacts (dir group : String) (i : Nat) (chunk : List Channel) : List FsOp :=
  [FsOp.writeFileOp (dir ++ "/SpecialLinks" ++ suffixStr i ++ ".m3u") (m3uRender group chunk),
   FsOp.writeFileOp (dir ++ "/SpecialLinks" ++ suffixStr i ++ ".json") (jsonRender chunk),
   FsOp.writeFileOp (dir ++ "/SpecialLinks" ++ suffixStr i ++ ".txt") (txtRender chunk)]

/-- Modelled from the spec: the trailing display name after the last comma
of an entry-metadata line, Unknown when the line has no comma or nothing
follows the last one. -/
def textAfterLastComma (line : List Char) : String :=
  let tailRev := line.reverse.takeWhile (fun c => c != ',')
  if tailRev.length = line.length then "Unknown"
  else if tailRev = [] then "Unknown"
  else String.mk tailRev.reverse

example : textAfterLastComma "#EXTINF:-1,A,B".data = "B" := by decide

/-- C10: for channelsPerFile at least one, concatenating in order the chunks
returned by splitChannels yields exactly the original channel list, and the
positivity precondition is required: the source loop, modelled with explicit
fuel, exits with exactly these chunks when channelsPerFile is positive but
never terminates (no amount of fuel suffices) when channelsPerFile is zero
on a non-empty list. -/
theorem splitChannels_concat_exact (l : List Channel) (n fuel : Nat)
    (acc : List (List Channel)) (hn : 0 < n) :
    (splitChannels n l).flatten = l
    ∧ splitChannelsLoop l n (l.length + 1) 0 [] = some (splitChannels n l)
    ∧ (l ≠ [] → splitChannelsLoop l 0 fuel 0 acc = none) := by
  refine ⟨splitChannels_flatten n hn l, ?_, ?_⟩
  · have h := splitChannelsLoop_some l n hn (l.length + 1) 0 [] (by omega)
    simpa using h
  · intro hne
    obtain ⟨x, xs, hx⟩ := List.exists_cons_of_ne_nil hne
    subst hx
    exact splitChannelsLoop_zero_none x xs fuel acc

theorem splitChannels_concat_exact_witness :
    0 < 2 ∧
      ((splitChannels 2 [Channel.mk "A" "u" "G", Channel.mk "B" "v" "G",
          Channel.mk "C" "w" "G"]).flatten
          = [Channel.mk "A" "u" "G", Channel.mk "B" "v" "G", Channel.mk "C" "w" "G"]
        ∧ splitChannelsLoop [Channel.mk "A" "u" "G", Channel.mk "B" "v" "G",
            Channel.mk "C" "w" "G"] 2
            ([Channel.mk "A" "u" "G", Channel.mk "B" "v" "G", Channel.mk "C" "w" "G"].length + 1)
            0 []
            = some (splitChannels 2 [Channel.mk "A" "u" "G", Channel.mk "B" "v" "G",
                Channel.mk "C" "w" "G"])
        ∧ ([Channel.mk "A" "u" "G", Channel.mk "B" "v" "G", Channel.mk "C" "w" "G"] ≠ [] →
            splitChannelsLoop [Channel.mk "A" "u" "G", Channel.mk "B" "v" "G",
              Channel.mk "C" "w" "G"] 0 7 0 [] = none)) :=
  ⟨by decide, splitChannels_concat_exact _ 2 7 [] (by decide)⟩

/-- C7: every chunk of a split bucket has length between one and
channelsPerFile; a bucket of five channels split with channelsPerFile two
yields exactly three chunks of sizes two, two and one, and the exporter
assigns positional suffixes: nothing for the first chunk, then 2, then 3,
visible in the paths of the written artifacts. -/
theorem chunk_bounds_and_suffixes (l : List Channel) (n : Nat) (hn : 0 < n)
    (a b c d e : Channel) (v w x y z : Channel) (hv : v = Channel.mk "A" "u1" "G")
    (hw : w = Channel.mk "B" "u2" "G") (hx : x = Channel.mk "C" "u3" "G")
    (hy : y = Channel.mk "D" "u4" "G") (hz : z = Channel.mk "E" "u5" "G") :
    (∀ ck ∈ splitChannels n l, 1 ≤ ck.length ∧ ck.length ≤ n)
    ∧ splitChannels 2 [a, b, c, d, e] = [[a, b], [c, d], [e]]
    ∧ (splitChannels 2 [a, b, c, d, e]).map List.length = [2, 2, 1]
    ∧ suffixStr 0 = "" ∧ suffixStr 1 = "2" ∧ suffixStr 2 = "3"
    ∧ (writesOf (bucketOps "out" "G" "U" [v, w, x, y, z] 2)).map opPath =
        ["out/G/U/SpecialLinks.m3u", "out/G/U/SpecialLinks.json", "out/G/U/SpecialLinks.txt",
         "out/G/U/SpecialLinks2.m3u", "out/G/U/SpecialLinks2.json", "out/G/U/SpecialLinks2.txt",
         "out/G/U/SpecialLinks3.m3u", "out/G/U/SpecialLinks3.json", "out/G/U/SpecialLinks3.txt"] := by
  subst hv hw hx hy hz
  refine ⟨?_, ?_, ?_, by decide, by decide, by decide, by decide⟩
  · intro ck hck
    exact splitChannels_chunk_bounds n hn l.length l (Nat.le_refl _) ck hck
  · simp [splitChannels_cons, splitChannels_nil]
  · simp [splitChannels_cons, splitChannels_nil]

theorem chunk_bounds_and_suffixes_witness :
    0 < 2 ∧
      ((∀ ck ∈ splitChannels 2 [Channel.mk "A" "u" "G"], 1 ≤ ck.length ∧ ck.length ≤ 2)
        ∧ splitChannels 2 [Channel.mk "A" "u1" "G", Channel.mk "B" "u2" "G",
            Channel.mk "C" "u3" "G", Channel.mk "D" "u4" "G", Channel.mk "E" "u5" "G"] =
            [[Channel.mk "A" "u1" "G", Channel.mk "B" "u2" "G"],
             [Channel.mk "C" "u3" "G", Channel.mk "D" "u4" "G"],
             [Channel.mk "E" "u5" "G"]]
        ∧ (splitChannels 2 [Channel.mk "A" "u1" "G", Channel.mk "B" "u2" "G",
            Channel.mk "C" "u3" "G", Channel.mk "D" "u4" "G",
            Channel.mk "E" "u5" "G"]).map List.length = [2, 2, 1]
        ∧ suffixStr 0 = "" ∧ suffixStr 1 = "2" ∧ suffixStr 2 = "3"
        ∧ (writesOf (bucketOps "out" "G" "U" [Channel.mk "A" "u1" "G", Channel.mk "B" "u2" "G",
            Channel.mk "C" "u3" "G", Channel.mk "D" "u4" "G",
            Channel.mk "E" "u5" "G"] 2)).map opPath =
            ["out/G/U/SpecialLinks.m3u", "out/G/U/SpecialLinks.json", "out/G/U/SpecialLinks.txt",
             "out/G/U/SpecialLinks2.m3u", "out/G/U/SpecialLinks2.json",
             "out/G/U/SpecialLinks2.txt",
             "out/G/U/SpecialLinks3.m3u", "out/G/U/SpecialLinks3.json",
             "out/G/U/SpecialLinks3.txt"]) :=
  ⟨by decide, chunk_bounds_and_suffixes [Channel.mk "A" "u" "G"] 2 (by decide)
    (Channel.mk "A" "u1" "G") (Channel.mk "B" "u2" "G") (Channel.mk "C" "u3" "G")
    (Channel.mk "D" "u4" "G") (Channel.mk "E" "u5" "G") _ _ _ _ _ rfl rfl rfl rfl rfl⟩

/-- C5: the liveness stage splits the deduplicated channel sequence into
consecutive batches: their concatenation in order is exactly the unique
sequence, every batch is non-empty and at most batchSize long, every batch
except possibly the last is exactly batchSize long, and the source batching
loop, run with sufficient fuel, produces exactly this batch sequence (the
model processes the batches sequentially in list order, as the source
awaits each batch before slicing the next). -/
theorem liveness_batches (fetch : String → Option String) (urls : List String) (bs : Nat)
    (hbs : 0 < bs) :
    (splitChannels bs (dedupAll (fetchParsed fetch urls))).flatten
        = dedupAll (fetchParsed fetch urls)
    ∧ (∀ b ∈ splitChannels bs (dedupAll (fetchParsed fetch urls)), 0 < b.length ∧ b.length ≤ bs)
    ∧ (∀ b ∈ (splitChannels bs (dedupAll (fetchParsed fetch urls))).dropLast, b.length = bs)
    ∧ splitChannelsLoop (dedupAll (fetchParsed fetch urls)) bs
        ((dedupAll (fetchParsed fetch urls)).length + 1) 0 []
        = some (splitChannels bs (dedupAll (fetchParsed fetch urls))) := by
  refine ⟨splitChannels_flatten bs hbs _, ?_, ?_, ?_⟩
  · intro b hb
    exact splitChannels_chunk_bounds bs hbs _ _ (Nat.le_refl _) b hb
  · intro b hb
    exact splitChannels_dropLast_full bs hbs _ _ (Nat.le_refl _) b hb
  · have h := splitChannelsLoop_some (dedupAll (fetchParsed fetch urls)) bs hbs
      ((dedupAll (fetchParsed fetch urls)).length + 1) 0 [] (by omega)
    simpa using h

theorem liveness_batches_witness :
    0 < 2 ∧
      ((splitChannels 2 (dedupAll (fetchParsed
            (fun _ => some "#EXTINF:-1,A\nhttp://u") ["s"]))).flatten
          = dedupAll (fetchParsed (fun _ => some "#EXTINF:-1,A\nhttp://u") ["s"])
        ∧ (∀ b ∈ splitChannels 2 (dedupAll (fetchParsed
            (fun _ => some "#EXTINF:-1,A\nhttp://u") ["s"])), 0 < b.length ∧ b.length ≤ 2)
        ∧ (∀ b ∈ (splitChannels 2 (dedupAll (fetchParsed
            (fun _ => some "#EXTINF:-1,A\nhttp://u") ["s"]))).dropLast, b.length = 2)
        ∧ splitChannelsLoop (dedupAll (fetchParsed
            (fun _ => some "#EXTINF:-1,A\nhttp://u") ["s"])) 2
            ((dedupAll (fetchParsed (fun _ => some "#EXTINF:-1,A\nhttp://u") ["s"])).length + 1)
            0 []
            = some (splitChannels 2 (dedupAll (fetchParsed
                (fun _ => some "#EXTINF:-1,A\nhttp://u") ["s"])))) :=
  ⟨by decide, liveness_batches (fun _ => some "#EXTINF:-1,A\nhttp://u") ["s"] 2 (by decide)⟩

theorem mem_checkLinkBatch {probe : String → Option Nat} {us : List String} {u : String} :
    (∃ r ∈ checkLinkBatch probe us, r.url = u) ↔
      u ∈ us ∧ statusActive (probe u) = true := by
  constructor
  · rintro ⟨r, hr, hu⟩
    rcases List.mem_filter.mp hr with ⟨hmem, hact⟩
    rcases List.mem_map.mp hmem with ⟨v, hv, heq⟩
    subst heq
    simp only at hu hact
    subst hu
    exact ⟨hv, hact⟩
  · rintro ⟨hmem, hact⟩
    refine ⟨CheckResult.mk u (statusActive (probe u)), ?_, rfl⟩
    refine List.mem_filter.mpr ⟨List.mem_map.mpr ⟨u, hmem, rfl⟩, ?_⟩
    simpa using hact

theorem lookupChannel_url {table : List Channel} {u : String} {ch : Channel}
    (h : lookupChannel table u = some ch) : ch.url = u ∧ ch ∈ table := by
  have h1 := List.find?_some h
  have h2 := List.mem_of_find?_eq_some h
  simp only [beq_iff_eq] at h1
  exact ⟨h1, h2⟩

theorem collect_mem_active {fetch : String → Option String} {probe : String → Option Nat}
    {urls : List String} {bs : Nat} {ch : Channel}
    (h : ch ∈ collectActiveLinks fetch probe urls bs) :
    statusActive (probe ch.url) = true := by
  simp only [collectActiveLinks] at h
  rcases List.mem_flatMap.mp h with ⟨batch, hb, hch⟩
  rcases List.mem_filterMap.mp hch with ⟨r, hr, hlook⟩
  rcases List.mem_filter.mp hr with ⟨hmem, hact⟩
  rcases List.mem_map.mp hmem with ⟨v, hv, heq⟩
  subst heq
  have hurl := (lookupChannel_url hlook).1
  simp only at hurl hact
  rw [hurl]
  exact hact

/-- C2: a probe outcome counts as active exactly when it completed with a
status of at least 200 and below 400 (a timeout or connection error is the
none outcome and is never active); a url appears among the active results
of a batch check exactly when it was in the batch and its probe outcome was
active; and every channel returned by the collection stage — the list the
exporter receives — has an active probe outcome for its url. -/
theorem liveness_active_characterization (fetch : String → Option String)
    (probe : String → Option Nat) (urls : List String) (bs : Nat) (us : List String)
    (u : String) (r : Option Nat) (ch : Channel)
    (hch : ch ∈ collectActiveLinks fetch probe urls bs) :
    (statusActive r = true ↔ ∃ s, r = some s ∧ 200 ≤ s ∧ s < 400)
    ∧ ((∃ res ∈ checkLinkBatch probe us, res.url = u) ↔
        u ∈ us ∧ statusActive (probe u) = true)
    ∧ statusActive (probe ch.url) = true := by
  refine ⟨?_, mem_checkLinkBatch, collect_mem_active hch⟩
  cases r with
  | none => simp [statusActive]
  | some s =>
    simp only [statusActive, Bool.and_eq_true, decide_eq_true_eq]
    constructor
    · rintro ⟨h1, h2⟩
      exact ⟨s, rfl, h1, h2⟩
    · rintro ⟨t, ht, h1, h2⟩
      cases ht
      exact ⟨h1, h2⟩

theorem liveness_active_characterization_witness :
    (Channel.mk "A" "http://u" "G" ∈ collectActiveLinks
        (fun _ => some "#EXTINF:-1 group-title=\"G\",A\nhttp://u")
        (fun _ => some 204) ["s"] 2) ∧
      ((statusActive (some 204) = true ↔ ∃ s, some 204 = some s ∧ 200 ≤ s ∧ s < 400)
        ∧ ((∃ res ∈ checkLinkBatch (fun _ => some 204) ["http://u"], res.url = "http://u") ↔
            "http://u" ∈ ["http://u"] ∧ statusActive ((fun (_ : String) => some 204) "http://u") = true)
        ∧ statusActive ((fun (_ : String) => some 204) (Channel.mk "A" "http://u" "G").url) = true) :=
  ⟨by decide, liveness_active_characterization
    (fun _ => some "#EXTINF:-1 group-title=\"G\",A\nhttp://u") (fun _ => some 204) ["s"] 2
    ["http://u"] "http://u" (some 204) (Channel.mk "A" "http://u" "G") (by decide)⟩

theorem dedup_fold_urls_nodup :
    ∀ (chs acc : List Channel), (acc.map Channel.url).Nodup →
      ((chs.foldl dedupInsert acc).map Channel.url).Nodup := by
  intro chs
  induction chs with
  | nil => intro acc h; simpa using h
  | cons ch chs ih =>
    intro acc h
    rw [List.foldl_cons]
    apply ih
    unfold dedupInsert
    split
    · exact h
    case isFalse hany =>
      rw [List.map_append]
      rw [List.nodup_append]
      refine ⟨h, by simp, ?_⟩
      intro u hu hu2
      simp only [List.map_cons, List.map_nil, List.mem_singleton] at hu2
      subst hu2
      rcases List.mem_map.mp hu with ⟨c, hc, hcu⟩
      apply hany
      refine List.any_eq_true.mpr ⟨c, hc, ?_⟩
      simp [hcu]

theorem dedupAll_urls_nodup (chs : List Channel) :
    ((dedupAll chs).map Channel.url).Nodup :=
  dedup_fold_urls_nodup chs [] (by simp)

theorem filterMap_lookup_urls (table : List Channel) :
    ∀ (rs : List CheckResult), (∀ r ∈ rs, r.url ∈ table.map Channel.url) →
      ((rs.filterMap (fun r => lookupChannel table r.url)).map Channel.url)
        = rs.map CheckResult.url := by
  intro rs
  induction rs with
  | nil => intro h; rfl
  | cons r rs ih =>
    intro h
    have hu : r.url ∈ table.map Channel.url := h r (List.mem_cons_self r rs)
    rcases List.mem_map.mp hu with ⟨c, hc, hcu⟩
    have hsome : (lookupChannel table r.url).isSome = true := by
      unfold lookupChannel
      rw [List.find?_isSome]
      exact ⟨c, hc, by simp [hcu]⟩
    rcases Option.isSome_iff_exists.mp hsome with ⟨ch, hch⟩
    rw [List.filterMap_cons, hch]
    simp only [List.map_cons]
    rw [(lookupChannel_url hch).1, ih (fun v hv => h v (List.mem_cons_of_mem r hv))]

theorem checkLinkBatch_urls_sublist (probe : String → Option Nat) (us : List String) :
    ((checkLinkBatch probe us).map CheckResult.url).Sublist us := by
  unfold checkLinkBatch
  have h1 := @List.filter_sublist CheckResult (fun r => r.isActive)
    (us.map (fun u => CheckResult.mk u (statusActive (probe u))))
  have h2 := h1.map CheckResult.url
  rw [List.map_map] at h2
  have h3 : ∀ (vs : List String),
      vs.map (CheckResult.url ∘ fun u => CheckResult.mk u (statusActive (probe u))) = vs := by
    intro vs
    induction vs with
    | nil => rfl
    | cons v vs ih =>
      simp only [List.map_cons, Function.comp_apply]
      rw [ih]
  rwa [h3 us] at h2

theorem flatten_sublist_flatten {α : Type} :
    ∀ {ls ts : List (List α)}, List.Forall₂ List.Sublist ls ts →
      ls.flatten.Sublist ts.flatten := by
  intro ls ts h
  induction h with
  | nil => simp
  | cons hab _ ih =>
    simp only [List.flatten_cons]
    exact hab.append ih

theorem forall₂_map_of_mem {α β : Type} {R : β → β → Prop} {f g : α → β} :
    ∀ (l : List α), (∀ a ∈ l, R (f a) (g a)) → List.Forall₂ R (l.map f) (l.map g) := by
  intro l
  induction l with
  | nil => intro _; simp
  | cons a l ih =>
    intro h
    simp only [List.map_cons]
    exact List.Forall₂.cons (h a (List.mem_cons_self a l))
      (ih (fun b hb => h b (List.mem_cons_of_mem a hb)))

theorem collectActiveLinks_urls_nodup (fetch : String → Option String)
    (probe : String → Option Nat) (urls : List String) (bs : Nat) (hbs : 0 < bs) :
    ((collectActiveLinks fetch probe urls bs).map Channel.url).Nodup := by
  unfold collectActiveLinks
  set unique := dedupAll (fetchParsed fetch urls) with huniq
  have hnodup : (unique.map Channel.url).Nodup := dedupAll_urls_nodup _
  have hflat : (splitChannels bs unique).flatten = unique := splitChannels_flatten bs hbs _
  rw [List.map_flatMap]
  have hmem_table : ∀ b ∈ splitChannels bs unique, ∀ u ∈ b.map Channel.url,
      u ∈ unique.map Channel.url := by
    intro b hb u hu
    rcases List.mem_map.mp hu with ⟨c, hc, hcu⟩
    refine List.mem_map.mpr ⟨c, ?_, hcu⟩
    rw [← hflat]
    exact List.mem_flatten.mpr ⟨b, hb, hc⟩
  have hperbatch : ∀ b ∈ splitChannels bs unique,
      ((fun batch => ((checkLinkBatch probe (batch.map Channel.url)).filterMap
          (fun r => lookupChannel unique r.url)).map Channel.url) b).Sublist
        ((fun batch => batch.map Channel.url) b) := by
    intro b hb
    simp only
    have hsub := checkLinkBatch_urls_sublist probe (b.map Channel.url)
    have hin : ∀ r ∈ checkLinkBatch probe (b.map Channel.url),
        r.url ∈ unique.map Channel.url := by
      intro r hr
      exact hmem_table b hb r.url (hsub.mem (List.mem_map.mpr ⟨r, hr, rfl⟩))
    have heq : (((checkLinkBatch probe (b.map Channel.url)).filterMap
        (fun r => lookupChannel unique r.url)).map Channel.url)
        = (checkLinkBatch probe (b.map Channel.url)).map CheckResult.url :=
      filterMap_lookup_urls unique _ hin
    rw [heq]
    exact hsub
  have hf2 : List.Forall₂ List.Sublist
      ((splitChannels bs unique).map (fun batch =>
        ((checkLinkBatch probe (batch.map Channel.url)).filterMap
          (fun r => lookupChannel unique r.url)).map Channel.url))
      ((splitChannels bs unique).map (fun batch => batch.map Channel.url)) := by
    apply forall₂_map_of_mem
    intro b hb
    exact hperbatch b hb
  have hsubflat := flatten_sublist_flatten hf2
  have hun : ((splitChannels bs unique).map (fun batch => batch.map Channel.url)).flatten
      = unique.map Channel.url := by
    rw [← List.map_flatten, hflat]
  rw [hun] at hsubflat
  have hres := List.Nodup.sublist hsubflat hnodup
  simpa [List.flatMap] using hres

theorem allOfCountries_add (l : List (String × List Channel)) (country : String) (ch : Channel) :
    (allOfCountries (addToCountry l country ch)).Perm (ch :: allOfCountries l) := by
  induction l with
  | nil => simp [addToCountry, allOfCountries]
  | cons p rest ih =>
    obtain ⟨k, cs⟩ := p
    simp only [addToCountry]
    split
    · simp only [allOfCountries, List.flatMap_cons]
      rw [List.append_assoc]
      exact List.perm_middle
    · simp only [allOfCountries, List.flatMap_cons] at ih ⊢
      exact (ih.append_left cs).trans List.perm_middle

theorem allOfGrouped_add (g : Grouped) (k c : String) (ch : Channel) :
    (allOfGrouped (addToGrouped g k c ch)).Perm (ch :: allOfGrouped g) := by
  induction g with
  | nil =>
    simp [addToGrouped, allOfGrouped, allOfCountries]
  | cons p rest ih =>
    obtain ⟨gk, sub⟩ := p
    simp only [addToGrouped]
    split
    · simp only [allOfGrouped, List.flatMap_cons]
      exact (allOfCountries_add sub c ch).append_right _
    · simp only [allOfGrouped, List.flatMap_cons] at ih ⊢
      exact (ih.append_left _).trans List.perm_middle

theorem groupChannels_fold_perm :
    ∀ (chs : List Channel) (g : Grouped),
      (allOfGrouped (chs.foldl (fun g ch =>
        let gc := channelRegionGroup ch.group
        addToGrouped g gc.1 gc.2 ch) g)).Perm (allOfGrouped g ++ chs) := by
  intro chs
  induction chs with
  | nil => intro g; simp
  | cons ch chs ih =>
    intro g
    rw [List.foldl_cons]
    have h1 := ih (addToGrouped g (channelRegionGroup ch.group).1 (channelRegionGroup ch.group).2 ch)
    have h2 := allOfGrouped_add g (channelRegionGroup ch.group).1 (channelRegionGroup ch.group).2 ch
    exact h1.trans ((h2.append_right chs).trans List.perm_middle.symm)

theorem allOfGrouped_groupChannels (chs : List Channel) :
    (allOfGrouped (groupChannels chs)).Perm chs := by
  have h := groupChannels_fold_perm chs []
  simpa [allOfGrouped, groupChannels] using h

theorem bucketsOf_flatMap_eq (g : Grouped) :
    (bucketsOf g).flatMap (fun b => b.2.2) = allOfGrouped g := by
  induction g with
  | nil => rfl
  | cons p rest ih =>
    obtain ⟨gk, sub⟩ := p
    simp only [bucketsOf, allOfGrouped, List.flatMap_cons, List.flatMap_append] at *
    rw [ih]
    congr 1
    rw [List.flatMap_map]
    rfl

theorem exportedChannels_perm (chs : List Channel) (n : Nat) (hn : 0 < n) :
    (exportedChannels chs n).Perm chs := by
  unfold exportedChannels
  have heq : (bucketsOf (groupChannels chs)).flatMap (fun b => (splitChannels n b.2.2).flatten)
      = (bucketsOf (groupChannels chs)).flatMap (fun b => b.2.2) := by
    apply List.flatMap_congr
    intro b _
    exact splitChannels_flatten n hn _
  rw [heq, bucketsOf_flatMap_eq]
  exact allOfGrouped_groupChannels chs

/-- C1: across one run the collection stage returns channels with pairwise
distinct urls (the URL-keyed table admits one entry per url, and each url is
probed in exactly one batch), and the exporter writes exactly the channels
of that list — the flattened chunks of all buckets are a permutation of the
collected list — so no two channels appearing in any output artifact share
a url. -/
theorem collect_export_url_uniqueness (fetch : String → Option String)
    (probe : String → Option Nat) (urls : List String) (bs n : Nat)
    (hbs : 0 < bs) (hn : 0 < n) :
    ((collectActiveLinks fetch probe urls bs).map Channel.url).Nodup
    ∧ (exportedChannels (collectActiveLinks fetch probe urls bs) n).Perm
        (collectActiveLinks fetch probe urls bs)
    ∧ ((exportedChannels (collectActiveLinks fetch probe urls bs) n).map Channel.url).Nodup := by
  have h1 := collectActiveLinks_urls_nodup fetch probe urls bs hbs
  have h2 := exportedChannels_perm (collectActiveLinks fetch probe urls bs) n hn
  exact ⟨h1, h2, ((h2.map Channel.url).symm).nodup h1⟩

theorem collect_export_url_uniqueness_witness :
    (0 < 2 ∧ 0 < 1) ∧
      (((collectActiveLinks (fun _ => some "#EXTINF:-1,A\nhttp://u\n#EXTINF:-1,B\nhttp://v")
          (fun _ => some 200) ["s", "t"] 2).map Channel.url).Nodup
        ∧ (exportedChannels (collectActiveLinks
            (fun _ => some "#EXTINF:-1,A\nhttp://u\n#EXTINF:-1,B\nhttp://v")
            (fun _ => some 200) ["s", "t"] 2) 1).Perm
            (collectActiveLinks (fun _ => some "#EXTINF:-1,A\nhttp://u\n#EXTINF:-1,B\nhttp://v")
              (fun _ => some 200) ["s", "t"] 2)
        ∧ ((exportedChannels (collectActiveLinks
            (fun _ => some "#EXTINF:-1,A\nhttp://u\n#EXTINF:-1,B\nhttp://v")
            (fun _ => some 200) ["s", "t"] 2) 1).map Channel.url).Nodup) :=
  ⟨⟨by decide, by decide⟩, collect_export_url_uniqueness
    (fun _ => some "#EXTINF:-1,A\nhttp://u\n#EXTINF:-1,B\nhttp://v")
    (fun _ => some 200) ["s", "t"] 2 1 (by decide) (by decide)⟩

theorem parseLines_url_ne :
    ∀ (ls : List (List Char)) (cur : Option Pending), ∀ ch ∈ parseLines ls cur, ch.url ≠ "" := by
  intro ls
  induction ls with
  | nil => intro cur ch hch; simp [parseLines] at hch
  | cons l ls ih =>
    intro cur ch hch
    simp only [parseLines] at hch
    split at hch
    · exact ih _ ch hch
    · split at hch
      case isTrue hB =>
        cases cur with
        | some p =>
          rcases List.mem_cons.mp hch with h | h
          · subst h
            intro hemp
            have hdata := congrArg String.data hemp
            simp only [String.data] at hdata
            exact hB.1 hdata
          · exact ih _ ch h
        | none => exact ih _ ch hch
      case isFalse hB => exact ih _ ch hch

theorem parseLines_eq_spec_aux :
    ∀ (len : Nat) (ls : List (List Char)), ls.length ≤ len →
      (parseLines ls none = parseSpecLines ls)
      ∧ (∀ p : Pending, parseLines ls (some p) =
          (match (findUrlStep ls).1 with
           | some u => [Channel.mk p.name (String.mk u) p.group]
           | none => []) ++ parseSpecLines (findUrlStep ls).2) := by
  intro len
  induction len with
  | zero =>
    intro ls hls
    have hnil : ls = [] := List.length_eq_zero.mp (Nat.le_zero.mp hls)
    subst hnil
    exact ⟨by simp [parseLines, parseSpecLines],
      fun p => by simp [parseLines, parseSpecLines, findUrlStep]⟩
  | succ k ih =>
    intro ls hls
    cases ls with
    | nil =>
      exact ⟨by simp [parseLines, parseSpecLines],
        fun p => by simp [parseLines, parseSpecLines, findUrlStep]⟩
    | cons l ls =>
      have hlen : ls.length ≤ k := by
        simp only [List.length_cons] at hls
        omega
      have IH := ih ls hlen
      by_cases hA : (listPrefixEq "#EXTINF".data (trimChars l)) = true
      · constructor
        · simp only [parseLines, parseSpecLines, if_pos hA]
          rw [IH.2 (mkPending (trimChars l))]
          cases h1 : (findUrlStep ls).1 with
          | none => simp [h1]
          | some u => simp [h1, mkPending]
        · intro p
          simp only [parseLines, findUrlStep, if_pos hA]
          rw [IH.2 (mkPending (trimChars l))]
          simp only [List.nil_append]
          simp only [parseSpecLines, if_pos hA]
          cases h1 : (findUrlStep ls).1 with
          | none => simp [h1]
          | some u => simp [h1, mkPending]
      · by_cases hB : (trimChars l ≠ [] ∧ ¬ (listPrefixEq "#".data (trimChars l)) = true)
        · constructor
          · simp only [parseLines, parseSpecLines, if_neg hA, if_pos hB]
            exact IH.1
          · intro p
            simp only [parseLines, parseSpecLines, findUrlStep, if_neg hA, if_pos hB]
            rw [IH.1]
            rfl
        · constructor
          · simp only [parseLines, parseSpecLines, if_neg hA, if_neg hB]
            exact IH.1
          · intro p
            simp only [parseLines, parseSpecLines, findUrlStep, if_neg hA, if_neg hB]
            exact IH.2 p

/-- C4: the parser emits a pending channel exactly under the condition the
specification states — the state machine of the source equals, on every
input text, the explicit search for the next non-blank non-directive line
before the next entry-metadata line or end of input, under which a pending
channel with no following url line is never emitted. -/
theorem parseM3U_pending_emission (content : String) :
    parseM3U content = parseM3USpec content := by
  unfold parseM3U parseM3USpec
  rw [List.filter_eq_self.mpr ?_]
  · exact (parseLines_eq_spec_aux (splitOnNewline content.data).length _ (Nat.le_refl _)).1
  · intro ch hch
    have h := parseLines_url_ne _ _ ch hch
    simpa using h

theorem findNameAfterComma_none {line : List Char} (h : ∀ c ∈ line, c ≠ ',') :
    findNameAfterComma line = none := by
  induction line with
  | nil => rfl
  | cons c rest ih =>
    simp only [findNameAfterComma]
    rw [if_neg (h c (List.mem_cons_self c rest))]
    exact ih (fun d hd => h d (List.mem_cons_of_mem c hd))

theorem findNameAfterComma_split {pre nm : List Char} (hpre : ∀ c ∈ pre, c ≠ ',')
    (hnm : nm ≠ []) (hclean : ∀ c ∈ nm, c ≠ '\n' ∧ c ≠ '\r') :
    findNameAfterComma (pre ++ ',' :: nm) = some nm := by
  induction pre with
  | nil =>
    simp only [List.nil_append, findNameAfterComma, if_pos rfl]
    have htake : nm.takeWhile (fun d => d != '\n' && d != '\r') = nm := by
      rw [List.takeWhile_eq_self_iff]
      intro x hx
      have hc := hclean x hx
      simp only [Bool.and_eq_true, bne_iff_ne, ne_eq]
      exact ⟨hc.1, hc.2⟩
    rw [htake]
    simp [hnm]
  | cons c pre ih =>
    simp only [List.cons_append, findNameAfterComma]
    rw [if_neg (hpre c (List.mem_cons_self _ _))]
    exact ih (fun d hd => hpre d (List.mem_cons_of_mem c hd))

theorem findGroupTitle_none {line : List Char} (h : hasSub groupTitlePat line = false) :
    findGroupTitle line = none := by
  induction line with
  | nil => rfl
  | cons c rest ih =>
    rw [hasSub, Bool.or_eq_false_iff] at h
    simp only [findGroupTitle]
    rw [if_neg (by simp [h.1])]
    exact ih h.2

/-- C3 counterexample: the name the parser emits is the text after the first
comma of the entry-metadata line, which on a line with two commas differs
from the trailing text after the last comma that the claim describes. -/
theorem extinf_name_last_comma_counterexample :
    parseM3U "#EXTINF:-1,A,B\nhttp://u"
        = [{ name := "A,B", url := "http://u", group := "Unknown" }]
    ∧ textAfterLastComma "#EXTINF:-1,A,B".data = "B"
    ∧ ("A,B" : String) ≠ "B" := by
  refine ⟨by decide, by decide, by decide⟩

/-- C3 amended: for every entry-metadata line the parser extracts the group
from an optional quoted group-title attribute, defaulting to Unknown when
the attribute is absent, and extracts the display name as the trailing text
after the FIRST comma of the line, defaulting to Unknown when the line has
no comma followed by text. -/
theorem extinf_extraction_amended (line line2 pre nm : List Char)
    (hline : ∀ c ∈ line, c ≠ ',')
    (hattr : hasSub groupTitlePat line2 = false)
    (hpre : ∀ c ∈ pre, c ≠ ',')
    (hnm : nm ≠ [])
    (hclean : ∀ c ∈ nm, c ≠ '\n' ∧ c ≠ '\r') :
    extinfName line = "Unknown"
    ∧ extinfName (pre ++ ',' :: nm) = String.mk nm
    ∧ extinfGroup line2 = "Unknown"
    ∧ extinfGroup "#EXTINF:-1 group-title=\"India News\",Channel1".data = "India News"
    ∧ extinfName "#EXTINF:-1 group-title=\"India News\",Channel1".data = "Channel1" := by
  refine ⟨?_, ?_, ?_, by decide, by decide⟩
  · unfold extinfName
    rw [findNameAfterComma_none hline]
  · unfold extinfName
    rw [findNameAfterComma_split hpre hnm hclean]
  · unfold extinfGroup
    rw [findGroupTitle_none hattr]

theorem extinf_extraction_amended_witness :
    ((∀ c ∈ "#EXTINF:-1".data, c ≠ ',')
      ∧ hasSub groupTitlePat "#EXTINF:-1 tvg=x".data = false
      ∧ (∀ c ∈ "#EXTINF:-1".data, c ≠ ',')
      ∧ "Name".data ≠ []
      ∧ (∀ c ∈ "Name".data, c ≠ '\n' ∧ c ≠ '\r')) ∧
      (extinfName "#EXTINF:-1".data = "Unknown"
        ∧ extinfName ("#EXTINF:-1".data ++ ',' :: "Name".data) = String.mk "Name".data
        ∧ extinfGroup "#EXTINF:-1 tvg=x".data = "Unknown"
        ∧ extinfGroup "#EXTINF:-1 group-title=\"India News\",Channel1".data = "India News"
        ∧ extinfName "#EXTINF:-1 group-title=\"India News\",Channel1".data = "Channel1") :=
  ⟨⟨by decide, by decide, by decide, by decide, by decide⟩,
    extinf_extraction_amended "#EXTINF:-1".data "#EXTINF:-1 tvg=x".data "#EXTINF:-1".data
      "Name".data (by decide) (by decide) (by decide) (by decide) (by decide)⟩

theorem find?_first_split {α : Type} {p : α → Bool} :
    ∀ {l : List α} {a : α}, l.find? p = some a →
      ∃ l₁ l₂, l = l₁ ++ a :: l₂ ∧ p a = true ∧ ∀ x ∈ l₁, p x = false := by
  intro l
  induction l with
  | nil => intro a h; simp at h
  | cons x xs ih =>
    intro a h
    cases hx : p x with
    | true =>
      rw [List.find?_cons_of_pos _ hx] at h
      cases h
      exact ⟨[], xs, by simp, hx, by simp⟩
    | false =>
      rw [List.find?_cons_of_neg _ (by simp [hx])] at h
      obtain ⟨l₁, l₂, heq, hpa, hall⟩ := ih h
      refine ⟨x :: l₁, l₂, by simp [heq], hpa, ?_⟩
      intro y hy
      rcases List.mem_cons.mp hy with hy | hy
      · subst hy; exact hx
      · exact hall y hy

/-- C6: the grouping engine classifies the Scenario C inputs as stated
(group India News yields region India and group News; group Entertainment
keeps its group with region Unknown; group India strips to General); when
no country of the ordered list occurs case-insensitively in the group, the
region is Unknown and the group is kept; and whenever a region is assigned
it is the first element of the ordered country list occurring
case-insensitively in the group — every earlier list element does not
occur. -/
theorem grouping_region_detection (ch : Channel) (hg : ch.group ≠ "") :
    channelRegionGroup "India News" = ("News", "India")
    ∧ channelRegionGroup "Entertainment" = ("Entertainment", "Unknown")
    ∧ channelRegionGroup "India" = ("General", "India")
    ∧ ((∀ c ∈ countries, hasSub (lowerChars c.data) (lowerChars ch.group.data) = false) →
        channelRegionGroup ch.group = (ch.group, "Unknown"))
    ∧ ((channelRegionGroup ch.group).2 ≠ "Unknown" →
        ∃ l₁ l₂, countries = l₁ ++ (channelRegionGroup ch.group).2 :: l₂
          ∧ hasSub (lowerChars (channelRegionGroup ch.group).2.data)
              (lowerChars ch.group.data) = true
          ∧ ∀ c ∈ l₁, hasSub (lowerChars c.data) (lowerChars ch.group.data) = false) := by
  refine ⟨by decide, by decide, by decide, ?_, ?_⟩
  · intro hnone
    have hfn : countries.find?
        (fun c => hasSub (lowerChars c.data) (lowerChars ch.group.data)) = none := by
      rw [List.find?_eq_none]
      intro c hc
      simp [hnone c hc]
    simp only [channelRegionGroup, if_neg hg, hfn]
    by_cases hu : ch.group = "Unknown"
    · simp [hu]
    · simp [hu]
  · intro hne
    cases hf : countries.find?
        (fun c => hasSub (lowerChars c.data) (lowerChars ch.group.data)) with
    | none =>
      exfalso
      apply hne
      simp only [channelRegionGroup, if_neg hg, hf]
    | some c =>
      have h2 : (channelRegionGroup ch.group).2 = c := by
        simp only [channelRegionGroup, if_neg hg, hf]
      obtain ⟨l₁, l₂, heq, hpc, hall⟩ := find?_first_split hf
      rw [h2]
      exact ⟨l₁, l₂, heq, hpc, hall⟩

theorem grouping_region_detection_witness :
    ((Channel.mk "Channel1" "http://u" "India News").group ≠ "") ∧
      (channelRegionGroup "India News" = ("News", "India")
        ∧ channelRegionGroup "Entertainment" = ("Entertainment", "Unknown")
        ∧ channelRegionGroup "India" = ("General", "India")
        ∧ ((∀ c ∈ countries, hasSub (lowerChars c.data)
            (lowerChars (Channel.mk "Channel1" "http://u" "India News").group.data) = false) →
            channelRegionGroup (Channel.mk "Channel1" "http://u" "India News").group =
              ((Channel.mk "Channel1" "http://u" "India News").group, "Unknown"))
        ∧ ((channelRegionGroup (Channel.mk "Channel1" "http://u" "India News").group).2 ≠
              "Unknown" →
            ∃ l₁ l₂, countries = l₁ ++
                (channelRegionGroup (Channel.mk "Channel1" "http://u" "India News").group).2 :: l₂
              ∧ hasSub (lowerChars (channelRegionGroup
                  (Channel.mk "Channel1" "http://u" "India News").group).2.data)
                  (lowerChars (Channel.mk "Channel1" "http://u" "India News").group.data) = true
              ∧ ∀ c ∈ l₁, hasSub (lowerChars c.data)
                  (lowerChars (Channel.mk "Channel1" "http://u" "India News").group.data)
                    = false)) :=
  ⟨by decide, grouping_region_detection (Channel.mk "Channel1" "http://u" "India News")
    (by decide)⟩

theorem bucket_has_write (outDir g c : String) (chs : List Channel) (n : Nat)
    (hne : chs ≠ []) :
    ∃ w ∈ bucketOps outDir g c chs n,
      (match w with
       | FsOp.writeFileOp _ _ => true
       | _ => false) = true := by
  obtain ⟨x, xs, hx⟩ := List.exists_cons_of_ne_nil hne
  subst hx
  unfold bucketOps
  rw [splitChannels_cons]
  simp only [chunkOps]
  rw [if_neg (by simp)]
  exact ⟨FsOp.writeFileOp _ _,
    List.mem_cons_of_mem _ (List.mem_cons_self _ _), rfl⟩

/-- C8: the exporter trace starts with the clear of the destination tree,
so the tree is cleared before any chunk is written (the delete operation is
the recursive force delete, which succeeds on an absent tree); a run with
no channels issues the clear and then removes the tree again, and more
generally any run whose trace contains no write ends as exactly the two
delete operations, leaving no output directory behind. -/
theorem exporter_clear_and_cleanup (chs : List Channel) (outDir : String) (n : Nat)
    (hn : 0 < n) :
    (saveResultsTrace chs outDir n).head? = some (FsOp.deleteTree outDir)
    ∧ (chs = [] →
        saveResultsTrace chs outDir n = [FsOp.deleteTree outDir, FsOp.deleteTree outDir])
    ∧ (writesOf (saveResultsTrace chs outDir n) = [] →
        saveResultsTrace chs outDir n = [FsOp.deleteTree outDir, FsOp.deleteTree outDir]) := by
  refine ⟨rfl, ?_, ?_⟩
  · intro h
    subst h
    rfl
  · intro hw
    have hmain : ((bucketsOf (groupChannels chs)).filter (fun b => b.2.2.length != 0)) = [] := by
      by_contra hnonempty
      obtain ⟨b, L, hb⟩ := List.exists_cons_of_ne_nil hnonempty
      have hbmem : b ∈ (bucketsOf (groupChannels chs)).filter (fun b => b.2.2.length != 0) := by
        rw [hb]
        exact List.mem_cons_self _ _
      have hbne : b.2.2 ≠ [] := by
        have h2 := (List.mem_filter.mp hbmem).2
        simpa using h2
      obtain ⟨w, hwmem, hwis⟩ := bucket_has_write outDir b.1 b.2.1 b.2.2 n hbne
      have hwtrace : w ∈ saveResultsTrace chs outDir n := by
        simp only [saveResultsTrace]
        refine List.mem_cons_of_mem _ (List.mem_append_left _ ?_)
        exact List.mem_flatMap.mpr ⟨b, hbmem, hwmem⟩
      have hwin : w ∈ writesOf (saveResultsTrace chs outDir n) :=
        List.mem_filter.mpr ⟨hwtrace, hwis⟩
      rw [hw] at hwin
      simp at hwin
    simp only [saveResultsTrace, hmain]
    rfl

theorem exporter_clear_and_cleanup_witness :
    0 < 1 ∧
      ((saveResultsTrace [] "out" 1).head? = some (FsOp.deleteTree "out")
        ∧ (([] : List Channel) = [] →
            saveResultsTrace [] "out" 1 = [FsOp.deleteTree "out", FsOp.deleteTree "out"])
        ∧ (writesOf (saveResultsTrace [] "out" 1) = [] →
            saveResultsTrace [] "out" 1 = [FsOp.deleteTree "out", FsOp.deleteTree "out"])) :=
  ⟨by decide, exporter_clear_and_cleanup [] "out" 1 (by decide)⟩

theorem chunkOps_enum (dir g : String) :
    ∀ (chunks : List (List Channel)) (i : Nat), (∀ c ∈ chunks, c ≠ []) →
      chunkOps dir g i chunks =
        (List.enumFrom i chunks).flatMap (fun p => chunkArtifacts dir g p.1 p.2) := by
  intro chunks
  induction chunks with
  | nil => intro i h; rfl
  | cons c cs ih =>
    intro i h
    have hc : c ≠ [] := h c (List.mem_cons_self _ _)
    simp only [chunkOps, List.enumFrom_cons, List.flatMap_cons]
    rw [if_neg (fun hh => hc (List.length_eq_zero.mp hh))]
    rw [ih (i + 1) (fun d hd => h d (List.mem_cons_of_mem _ hd))]
    rfl

theorem chunkOps_writes_length (dir g : String) :
    ∀ (chunks : List (List Channel)) (i : Nat), (∀ c ∈ chunks, c ≠ []) →
      (writesOf (chunkOps dir g i chunks)).length = 3 * chunks.length := by
  intro chunks
  induction chunks with
  | nil => intro i h; rfl
  | cons c cs ih =>
    intro i h
    have hc : c ≠ [] := h c (List.mem_cons_self _ _)
    simp only [chunkOps]
    rw [if_neg (fun hh => hc (List.length_eq_zero.mp hh))]
    have ihx := ih (i + 1) (fun d hd => h d (List.mem_cons_of_mem _ hd))
    simp only [writesOf] at ihx
    simp [writesOf, ihx, Nat.mul_succ]

/-- C9 counterexample: a complete run of the exporter over one active
channel writes exactly three artifacts for its chunk — extended playlist,
JSON array and plain-text url list — not four, and no structured JSON
document carrying a date field and a channels object is produced. -/
theorem exporter_four_artifacts_counterexample :
    writesOf (saveResultsTrace [Channel.mk "A" "http://u" "G"] "out" 2) =
      [FsOp.writeFileOp "out/G/Unknown/SpecialLinks.m3u"
        "#EXTM3U\n#EXTINF:-1 group-title=\"G\",A\nhttp://u\n",
       FsOp.writeFileOp "out/G/Unknown/SpecialLinks.json"
        "[\n  \x7b\n    \"name\": \"A\",\n    \"url\": \"http://u\",\n    \"group\": \"G\"\n  \x7d\n]",
       FsOp.writeFileOp "out/G/Unknown/SpecialLinks.txt" "http://u"]
    ∧ (writesOf (saveResultsTrace [Channel.mk "A" "http://u" "G"] "out" 2)).length = 3
    ∧ (writesOf (saveResultsTrace [Channel.mk "A" "http://u" "G"] "out" 2)).length ≠ 4 := by
  refine ⟨by decide, by decide, by decide⟩

/-- C9 amended: for each non-empty chunk the exporter writes exactly three
artifacts — the extended playlist (header line, then per channel a metadata
directive line and the url line), the JSON document that is the two-space
indented array of the channel records of the chunk, and the plain-text
one-url-per-line file — at the suffixed chunk paths; the write count of a
bucket is three times its chunk count, and the rendered contents of a
one-channel chunk are the explicit strings below. -/
theorem exporter_artifacts_amended (outDir g c : String) (chs : List Channel) (n : Nat)
    (hn : 0 < n) (hne : chs ≠ []) :
    bucketOps outDir g c chs n =
      FsOp.mkdirTree (outDir ++ "/" ++ safeName g ++ "/" ++ safeName c) ::
        (List.enumFrom 0 (splitChannels n chs)).flatMap (fun p =>
          chunkArtifacts (outDir ++ "/" ++ safeName g ++ "/" ++ safeName c) g p.1 p.2)
    ∧ (writesOf (bucketOps outDir g c chs n)).length = 3 * (splitChannels n chs).length
    ∧ m3uRender "G" [Channel.mk "A" "http://u" "G"]
        = "#EXTM3U\n#EXTINF:-1 group-title=\"G\",A\nhttp://u\n"
    ∧ jsonRender [Channel.mk "A" "http://u" "G"]
        = "[\n  \x7b\n    \"name\": \"A\",\n    \"url\": \"http://u\",\n    \"group\": \"G\"\n  \x7d\n]"
    ∧ txtRender [Channel.mk "A" "http://u" "G"] = "http://u" := by
  have hnonempty : ∀ ck ∈ splitChannels n chs, ck ≠ [] := by
    intro ck hck hcknil
    have hb := splitChannels_chunk_bounds n hn chs.length chs (Nat.le_refl _) ck hck
    rw [hcknil] at hb
    simp at hb
  refine ⟨?_, ?_, by decide, by decide, by decide⟩
  · simp only [bucketOps]
    rw [chunkOps_enum _ _ _ 0 hnonempty]
  · simp only [bucketOps]
    have hstep : writesOf (FsOp.mkdirTree (outDir ++ "/" ++ safeName g ++ "/" ++ safeName c) ::
        chunkOps (outDir ++ "/" ++ safeName g ++ "/" ++ safeName c) g 0 (splitChannels n chs))
        = writesOf (chunkOps (outDir ++ "/" ++ safeName g ++ "/" ++ safeName c) g 0
            (splitChannels n chs)) := rfl
    rw [hstep]
    exact chunkOps_writes_length _ _ _ 0 hnonempty

theorem exporter_artifacts_amended_witness :
    (0 < 2 ∧ [Channel.mk "A" "http://u" "G"] ≠ []) ∧
      (bucketOps "out" "G" "Unknown" [Channel.mk "A" "http://u" "G"] 2 =
          FsOp.mkdirTree ("out" ++ "/" ++ safeName "G" ++ "/" ++ safeName "Unknown") ::
            (List.enumFrom 0 (splitChannels 2 [Channel.mk "A" "http://u" "G"])).flatMap (fun p =>
              chunkArtifacts ("out" ++ "/" ++ safeName "G" ++ "/" ++ safeName "Unknown")
                "G" p.1 p.2)
        ∧ (writesOf (bucketOps "out" "G" "Unknown" [Channel.mk "A" "http://u" "G"] 2)).length
            = 3 * (splitChannels 2 [Channel.mk "A" "http://u" "G"]).length
        ∧ m3uRender "G" [Channel.mk "A" "http://u" "G"]
            = "#EXTM3U\n#EXTINF:-1 group-title=\"G\",A\nhttp://u\n"
        ∧ jsonRender [Channel.mk "A" "http://u" "G"]
            = "[\n  \x7b\n    \"name\": \"A\",\n    \"url\": \"http://u\",\n    \"group\": \"G\"\n  \x7d\n]"
        ∧ txtRender [Channel.mk "A" "http://u" "G"] = "http://u") :=
  ⟨⟨by decide, by decide⟩, exporter_artifacts_amended "out" "G" "Unknown"
    [Channel.mk "A" "http://u" "G"] 2 (by decide) (by decide)⟩
